import Mathlib

/-!
Verification of the tag-decoding / candidate-ranking core of
`bert_e2e_absa/work.py` (fani-lab/BERT-E2E-ABSA), shallowly embedded in Lean.

Python floats are modelled as rationals, Python lists as `List`, the
`seen_words` dict of `get_unique_prediction_results` as an association list
where the most recent binding shadows older ones, and the partial functions of
the script (`assert`, `raise Exception`) as `Except`-valued functions.
-/

namespace BertABSA

/-- Association-list lookup; the head of the list is the most recent binding,
so prepending a pair models a Python dict update. -/
def lookupA {κ β : Type} [DecidableEq κ] (k : κ) : List (κ × β) → Option β
  | [] => none
  | (k0, v0) :: rest => if k = k0 then some v0 else lookupA k rest

/-- Inner loop of `get_unique_prediction_results` (work.py lines 157-164):
walk the `(word, score)` list keeping a `seen_words` map; emit a pair when its
word is unseen or its score strictly exceeds the recorded one. -/
def dedupAux : List (String × ℚ) → List (String × ℚ) → List (String × ℚ)
  | _, [] => []
  | seen, (w, s) :: rest =>
    match lookupA w seen with
    | none => (w, s) :: dedupAux ((w, s) :: seen) rest
    | some s0 => if s0 < s then (w, s) :: dedupAux ((w, s) :: seen) rest
                 else dedupAux seen rest

/-- Deduplication pass of `get_unique_prediction_results` applied to one
sentence's `(word, score)` list. -/
def get_unique_sublist (l : List (String × ℚ)) : List (String × ℚ) :=
  dedupAux [] l

/-- Function `get_unique_prediction_results` (work.py lines 152-165): pair each
`(index, score)` with `words_list[i][index]`, then deduplicate each sentence. -/
def get_unique_prediction_results (words_list : List (List String))
    (target_list : List (List (Nat × ℚ))) : List (List (String × ℚ)) :=
  (target_list.enum).map (fun p =>
    get_unique_sublist (p.2.map (fun q => ((words_list.getD p.1 []).getD q.1 (""), q.2))))

/-- Insert a pair into a list sorted by score descending, after every element
of score `≥` its own; used to model Python's stable `sorted(..., reverse=True)`. -/
def insertDesc {α : Type} (p : α × ℚ) : List (α × ℚ) → List (α × ℚ)
  | [] => [p]
  | q :: qs => if p.2 < q.2 then q :: insertDesc p qs else p :: q :: qs

/-- Stable sort by score descending, modelling
`sorted(tuple_list, key=lambda x: x[1], reverse=True)` (work.py line 234). -/
def sortDesc {α : Type} : List (α × ℚ) → List (α × ℚ)
  | [] => []
  | p :: ps => insertDesc p (sortDesc ps)

/-- The candidate ranker at the `(word, score)` level: the stable descending
sort of work.py line 234 followed by the deduplication pass of
`get_unique_prediction_results`. -/
def rank (l : List (String × ℚ)) : List (String × ℚ) :=
  get_unique_sublist (sortDesc l)

/-- The score recorded for every element of the list is an upper bound for
that element; holds vacuously of the empty `seen_words` map. -/
def SeenBound (seen l : List (String × ℚ)) : Prop :=
  ∀ p ∈ l, ∀ s0 : ℚ, lookupA p.1 seen = some s0 → p.2 ≤ s0

theorem seenBound_nil (l : List (String × ℚ)) : SeenBound [] l := by
  intro p _ s0 h
  simp [lookupA] at h

theorem dedupAux_sublist (l : List (String × ℚ)) :
    ∀ seen, (dedupAux seen l).Sublist l := by
  induction l with
  | nil => intro seen; simp [dedupAux]
  | cons p rest ih =>
    intro seen
    obtain ⟨w, s⟩ := p
    simp only [dedupAux]
    cases h : lookupA w seen with
    | none => exact List.Sublist.cons₂ _ (ih _)
    | some s0 =>
      by_cases hs : s0 < s
      · simp only [hs, if_true]
        exact List.Sublist.cons₂ _ (ih _)
      · simp only [hs, if_false]
        exact List.Sublist.cons _ (ih _)

theorem seenBound_extend {seen rest : List (String × ℚ)} {w : String} {s : ℚ}
    (hdesc : List.Pairwise (fun a b => b.2 ≤ a.2) ((w, s) :: rest))
    (hP : SeenBound seen ((w, s) :: rest)) :
    SeenBound ((w, s) :: seen) rest := by
  intro p hp s0 hl
  simp only [lookupA] at hl
  by_cases hw : p.1 = w
  · simp only [hw, if_true] at hl
    obtain rfl : s = s0 := by injection hl
    exact List.rel_of_pairwise_cons hdesc hp
  · simp only [hw, if_false] at hl
    exact hP p (List.mem_cons_of_mem _ hp) s0 hl

theorem seenBound_tail {seen rest : List (String × ℚ)} {p : String × ℚ}
    (hP : SeenBound seen (p :: rest)) : SeenBound seen rest :=
  fun q hq s0 hl => hP q (List.mem_cons_of_mem _ hq) s0 hl

theorem dedupAux_not_mem_of_seen (l : List (String × ℚ)) :
    ∀ seen, List.Pairwise (fun a b => b.2 ≤ a.2) l → SeenBound seen l →
    ∀ w s', lookupA w seen = some s' → w ∉ (dedupAux seen l).map Prod.fst := by
  induction l with
  | nil => intro seen _ _ w s' _; simp [dedupAux]
  | cons p rest ih =>
    intro seen hdesc hP w s' hlk
    obtain ⟨w0, s0⟩ := p
    simp only [dedupAux]
    cases h : lookupA w0 seen with
    | none =>
      have hw : w ≠ w0 := by
        intro he; rw [he] at hlk; rw [hlk] at h; exact Option.noConfusion h
      simp only [List.map_cons, List.mem_cons]
      intro hc
      rcases hc with hc | hc
      · exact hw hc
      · have hP' : SeenBound ((w0, s0) :: seen) rest := seenBound_extend hdesc hP
        have : lookupA w ((w0, s0) :: seen) = some s' := by
          simp only [lookupA, hw, if_false]; exact hlk
        exact ih _ (List.Pairwise.of_cons hdesc) hP' w s' this hc
    | some t =>
      have hle : s0 ≤ t := hP (w0, s0) (List.mem_cons_self _ _) t h
      have hns : ¬ t < s0 := not_lt.mpr hle
      simp only [hns, if_false]
      exact ih _ (List.Pairwise.of_cons hdesc) (seenBound_tail hP) w s' hlk

theorem dedupAux_nodup (l : List (String × ℚ)) :
    ∀ seen, List.Pairwise (fun a b => b.2 ≤ a.2) l → SeenBound seen l →
    ((dedupAux seen l).map Prod.fst).Nodup := by
  induction l with
  | nil => intro seen _ _; simp [dedupAux]
  | cons p rest ih =>
    intro seen hdesc hP
    obtain ⟨w0, s0⟩ := p
    simp only [dedupAux]
    cases h : lookupA w0 seen with
    | none =>
      have hP' : SeenBound ((w0, s0) :: seen) rest := seenBound_extend hdesc hP
      simp only [List.map_cons, List.nodup_cons]
      constructor
      · exact dedupAux_not_mem_of_seen rest _ (List.Pairwise.of_cons hdesc) hP' w0 s0
          (by simp [lookupA])
      · exact ih _ (List.Pairwise.of_cons hdesc) hP'
    | some t =>
      have hle : s0 ≤ t := hP (w0, s0) (List.mem_cons_self _ _) t h
      have hns : ¬ t < s0 := not_lt.mpr hle
      simp only [hns, if_false]
      exact ih _ (List.Pairwise.of_cons hdesc) (seenBound_tail hP)

theorem dedupAux_max (l : List (String × ℚ)) :
    ∀ seen, List.Pairwise (fun a b => b.2 ≤ a.2) l → SeenBound seen l →
    ∀ p ∈ dedupAux seen l, ∀ q ∈ l, q.1 = p.1 → q.2 ≤ p.2 := by
  induction l with
  | nil => intro seen _ _ p hp; simp [dedupAux] at hp
  | cons hd rest ih =>
    intro seen hdesc hP p hp q hq hqp
    obtain ⟨w0, s0⟩ := hd
    cases h : lookupA w0 seen with
    | none =>
      simp only [dedupAux, h] at hp
      have hP' : SeenBound ((w0, s0) :: seen) rest := seenBound_extend hdesc hP
      rcases List.mem_cons.mp hp with rfl | hp'
      · -- p is the head (w0, s0)
        rcases List.mem_cons.mp hq with rfl | hq'
        · exact le_refl _
        · exact List.rel_of_pairwise_cons hdesc hq'
      · rcases List.mem_cons.mp hq with rfl | hq'
        · -- q is the head, but then p would carry the word w0 already seen
          exfalso
          have hmem : p.1 ∈ (dedupAux ((w0, s0) :: seen) rest).map Prod.fst :=
            List.mem_map_of_mem Prod.fst hp'
          rw [← hqp] at hmem
          exact dedupAux_not_mem_of_seen rest _ (List.Pairwise.of_cons hdesc) hP'
            w0 s0 (by simp [lookupA]) hmem
        · exact ih _ (List.Pairwise.of_cons hdesc) hP' p hp' q hq' hqp
    | some t =>
      have hle : s0 ≤ t := hP (w0, s0) (List.mem_cons_self _ _) t h
      have hns : ¬ t < s0 := not_lt.mpr hle
      simp only [dedupAux, h, hns, if_false] at hp
      rcases List.mem_cons.mp hq with rfl | hq'
      · -- q is the skipped head; p cannot carry the word w0 either
        exfalso
        have hmem : p.1 ∈ (dedupAux seen rest).map Prod.fst :=
          List.mem_map_of_mem Prod.fst hp
        rw [← hqp] at hmem
        exact dedupAux_not_mem_of_seen rest _ (List.Pairwise.of_cons hdesc)
          (seenBound_tail hP) w0 t h hmem
      · exact ih _ (List.Pairwise.of_cons hdesc) (seenBound_tail hP) p hp q hq' hqp

theorem mem_insertDesc {α : Type} (p x : α × ℚ) (l : List (α × ℚ)) :
    x ∈ insertDesc p l ↔ x = p ∨ x ∈ l := by
  induction l with
  | nil => simp [insertDesc]
  | cons q qs ih =>
    simp only [insertDesc]
    by_cases h : p.2 < q.2
    · simp only [h, if_true, List.mem_cons, ih]
      tauto
    · simp only [h, if_false, List.mem_cons]

theorem insertDesc_perm {α : Type} (p : α × ℚ) (l : List (α × ℚ)) :
    (insertDesc p l).Perm (p :: l) := by
  induction l with
  | nil => simp [insertDesc]
  | cons q qs ih =>
    simp only [insertDesc]
    by_cases h : p.2 < q.2
    · simp only [h, if_true]
      exact (List.Perm.cons q ih).trans (List.Perm.swap p q qs)
    · simp only [h, if_false]
      exact List.Perm.refl _

theorem insertDesc_pairwise {α : Type} (p : α × ℚ) (l : List (α × ℚ))
    (hl : List.Pairwise (fun a b => b.2 ≤ a.2) l) :
    List.Pairwise (fun a b => b.2 ≤ a.2) (insertDesc p l) := by
  induction l with
  | nil => simp [insertDesc]
  | cons q qs ih =>
    simp only [insertDesc]
    by_cases h : p.2 < q.2
    · simp only [h, if_true]
      rw [List.pairwise_cons]
      refine ⟨?_, ih (List.Pairwise.of_cons hl)⟩
      intro x hx
      rcases (mem_insertDesc p x qs).mp hx with rfl | hx'
      · exact le_of_lt h
      · exact List.rel_of_pairwise_cons hl hx'
    · simp only [h, if_false]
      rw [List.pairwise_cons]
      refine ⟨?_, hl⟩
      intro x hx
      rcases List.mem_cons.mp hx with rfl | hx'
      · exact not_lt.mp h
      · exact le_trans (List.rel_of_pairwise_cons hl hx') (not_lt.mp h)

theorem sortDesc_pairwise {α : Type} (l : List (α × ℚ)) :
    List.Pairwise (fun a b => b.2 ≤ a.2) (sortDesc l) := by
  induction l with
  | nil => simp [sortDesc]
  | cons p ps ih => exact insertDesc_pairwise p _ ih

theorem sortDesc_perm {α : Type} (l : List (α × ℚ)) : (sortDesc l).Perm l := by
  induction l with
  | nil => simp [sortDesc]
  | cons p ps ih =>
    exact (insertDesc_perm p (sortDesc ps)).trans (List.Perm.cons p ih)

theorem insertDesc_of_le {α : Type} (p : α × ℚ) (l : List (α × ℚ))
    (h : ∀ q ∈ l, q.2 ≤ p.2) : insertDesc p l = p :: l := by
  cases l with
  | nil => simp [insertDesc]
  | cons q qs =>
    have : ¬ p.2 < q.2 := not_lt.mpr (h q (List.mem_cons_self _ _))
    simp [insertDesc, this]

theorem sortDesc_of_pairwise {α : Type} (l : List (α × ℚ))
    (hl : List.Pairwise (fun a b => b.2 ≤ a.2) l) : sortDesc l = l := by
  induction l with
  | nil => simp [sortDesc]
  | cons p ps ih =>
    simp only [sortDesc]
    rw [ih (List.Pairwise.of_cons hl)]
    exact insertDesc_of_le p ps (fun q hq => List.rel_of_pairwise_cons hl hq)

theorem dedupAux_of_nodup (l : List (String × ℚ)) :
    ∀ seen, (∀ p ∈ l, lookupA p.1 seen = none) → ((l.map Prod.fst).Nodup) →
    dedupAux seen l = l := by
  induction l with
  | nil => intro seen _ _; simp [dedupAux]
  | cons p rest ih =>
    intro seen hno hnd
    obtain ⟨w, s⟩ := p
    have h0 : lookupA w seen = none := hno (w, s) (List.mem_cons_self _ _)
    simp only [dedupAux, h0]
    congr 1
    apply ih
    · intro q hq
      have hne : q.1 ≠ w := by
        intro he
        have : q.1 ∈ (rest.map Prod.fst) := List.mem_map_of_mem Prod.fst hq
        rw [he] at this
        simp only [List.map_cons, List.nodup_cons] at hnd
        exact hnd.1 this
      simp only [lookupA, hne, if_false]
      exact hno q (List.mem_cons_of_mem _ hq)
    · simp only [List.map_cons, List.nodup_cons] at hnd
      exact hnd.2

theorem rank_pairwise (l : List (String × ℚ)) :
    List.Pairwise (fun a b => b.2 ≤ a.2) (rank l) :=
  List.Pairwise.sublist (dedupAux_sublist _ _) (sortDesc_pairwise l)

theorem rank_nodup (l : List (String × ℚ)) : ((rank l).map Prod.fst).Nodup :=
  dedupAux_nodup _ _ (sortDesc_pairwise l) (seenBound_nil _)

theorem rank_mem (l : List (String × ℚ)) : ∀ p ∈ rank l, p ∈ l := by
  intro p hp
  exact (sortDesc_perm l).mem_iff.mp ((dedupAux_sublist _ _).mem hp)

theorem rank_max (l : List (String × ℚ)) :
    ∀ p ∈ rank l, ∀ q ∈ l, q.1 = p.1 → q.2 ≤ p.2 := by
  intro p hp q hq hqp
  exact dedupAux_max _ _ (sortDesc_pairwise l) (seenBound_nil _) p hp q
    ((sortDesc_perm l).mem_iff.mpr hq) hqp

/-- Gold-aligner loop of `predict` (work.py lines 268-270): walk the gold
label ids with their position `i`, appending `words[i-1]` whenever the id is
`> 1` and `0 < i < len(words)`. -/
def goldAlignLoop (words : List String) : Nat → List Int → List String
  | _, [] => []
  | i, a :: rest =>
    (if 1 < a ∧ 0 < i ∧ i < words.length then [words.getD (i - 1) ("")] else [])
      ++ goldAlignLoop words (i + 1) rest

/-- The gold aligner: `for i, a in enumerate(labels.tolist()[0]): ...`
of work.py lines 268-270, starting the position counter at 0. -/
def goldAlign (labels : List Int) (words : List String) : List String :=
  goldAlignLoop words 0 labels

/-- Dict `absa_label_vocab` for the `BIEOS` schema (work.py lines 184-186). -/
def bieos_vocab : List (String × Nat) :=
  [("O", 0), ("EQ", 1), ("B-POS", 2), ("I-POS", 3), ("E-POS", 4), ("S-POS", 5),
   ("B-NEG", 6), ("I-NEG", 7), ("E-NEG", 8), ("S-NEG", 9),
   ("B-NEU", 10), ("I-NEU", 11), ("E-NEU", 12), ("S-NEU", 13)]

/-- Dict `absa_label_vocab` for the `BIO` schema (work.py lines 188-189). -/
def bio_vocab : List (String × Nat) :=
  [("O", 0), ("EQ", 1), ("B-POS", 2), ("I-POS", 3),
   ("B-NEG", 4), ("I-NEG", 5), ("B-NEU", 6), ("I-NEU", 7)]

/-- Dict `absa_label_vocab` for the `OT` schema (work.py line 191). -/
def ot_vocab : List (String × Nat) :=
  [("O", 0), ("EQ", 1), ("T-POS", 2), ("T-NEG", 3), ("T-NEU", 4)]

/-- Schema dispatch of work.py lines 183-193: the three supported schema names
select their vocabulary; any other name raises (modelled as `none`). -/
def absa_label_vocab (schema : String) : Option (List (String × Nat)) :=
  if schema = "BIEOS" then some bieos_vocab
  else if schema = "BIO" then some bio_vocab
  else if schema = "OT" then some ot_vocab
  else none

/-- Dict `absa_id2tag` (work.py lines 195-199): the inverse dict built by iterating
the vocabulary; prepending models dict insertion with later keys shadowing. -/
def absa_id2tag (v : List (String × Nat)) : List (Nat × String) :=
  v.foldl (fun m p => (p.2, p.1) :: m) []

/-- Modelled from the spec: `bio2ot_ts` of `bert_e2e_absa.seq_utils` is not in
the sources; §4.2 collapses `B-x`/`I-x` into `T-x`, keeping `O` and `EQ`. -/
def bio2ot_ts (l : List String) : List String :=
  l.map (fun t => if t = "O" ∨ t = "EQ" then t else ("T-" ++ t.drop 2))

/-- Modelled from the spec: inner scan of `ot2bieos_ts` of
`bert_e2e_absa.seq_utils` (not in the sources); §4.2 rewrites each `T-x` to
`S-x`/`B-x`/`E-x`/`I-x` from the polarity of its two neighbours. -/
def ot2bieos_go : Option String → List String → List String
  | _, [] => []
  | prev, t :: rest =>
    (if t = "O" ∨ t = "EQ" then t
     else
       if rest.head? = some t then
         (if prev = some t then ("I-" ++ t.drop 2) else ("B-" ++ t.drop 2))
       else
         (if prev = some t then ("E-" ++ t.drop 2) else ("S-" ++ t.drop 2)))
      :: ot2bieos_go (some t) rest

/-- Modelled from the spec: `ot2bieos_ts` of `bert_e2e_absa.seq_utils` (not in
the sources); single left-to-right scan with one-token lookbehind. -/
def ot2bieos_ts (l : List String) : List String :=
  ot2bieos_go none l

/-- Modelled from the spec: inner scan of `tag2ts` of
`bert_e2e_absa.seq_utils` (not in the sources); §4.3's finite-state span
extractor over a BIEOS sequence, carrying the position and the open span. -/
def tag2ts_go : Nat → Option (Nat × String) → List String → List (Nat × Nat × String)
  | i, some (b, y), [] => [(b, i - 1, y)]
  | _, none, [] => []
  | i, st, t :: rest =>
    if t = "O" ∨ t = "EQ" then
      (match st with | some (b, y) => [(b, i - 1, y)] | none => [])
        ++ tag2ts_go (i + 1) none rest
    else if t.startsWith ("S-") then
      (match st with | some (b, y) => [(b, i - 1, y)] | none => [])
        ++ [(i, i, t.drop 2)] ++ tag2ts_go (i + 1) none rest
    else if t.startsWith ("B-") then
      (match st with | some (b, y) => [(b, i - 1, y)] | none => [])
        ++ tag2ts_go (i + 1) (some (i, t.drop 2)) rest
    else if t.startsWith ("E-") then
      (match st with | some (b, _) => [(b, i, t.drop 2)] | none => [(i, i, t.drop 2)])
        ++ tag2ts_go (i + 1) none rest
    else
      tag2ts_go (i + 1) st rest

/-- Modelled from the spec: `tag2ts` of `bert_e2e_absa.seq_utils` (not in the
sources); extracts `(begin, end, polarity)` spans from a BIEOS tag sequence. -/
def tag2ts (ts_tag_sequence : List String) : List (Nat × Nat × String) :=
  tag2ts_go 0 none ts_tag_sequence

/-- Dataclass `Aspect_With_Sentiment` (work.py lines 22-26). -/
structure Aspect_With_Sentiment where
  aspect : String
  indices : Nat × Nat
  sentiment : String
deriving DecidableEq

/-- Assembly of one span (work.py lines 253-256): `aspect = words[beg:end+1]`
and `Aspect_With_Sentiment(aspect=aspect[0], indices=(beg, end), ...)`.
Python's `aspect[0]` on the slice is modelled by `headD` with default `""`. -/
def mkAspect (words : List String) (t : Nat × Nat × String) : Aspect_With_Sentiment :=
  { aspect := ((words.drop t.1).take (t.2.1 + 1 - t.1)).headD ("")
    indices := (t.1, t.2.1)
    sentiment := t.2.2 }

/-- The `for t in p_ts_sequence` assembly loop of work.py lines 253-256. -/
def assembleAspects (words : List String) (spans : List (Nat × Nat × String)) :
    List Aspect_With_Sentiment :=
  spans.map (mkAspect words)

/-- Maximum of a list of rationals, 0 on the empty list; models `np.max`
along one row (which numpy only defines on a non-empty slice). -/
def listMax : List ℚ → ℚ
  | [] => 0
  | x :: xs => xs.foldl max x

/-- Model of `np.max(np.array(probs[0])[1:len(words), 2:], axis=1)` (work.py line 230):
rows 1 to `len(words)-1` of the score matrix, maximised over columns from 2. -/
def max_values (probs : List (List ℚ)) (nwords : Nat) : List ℚ :=
  ((probs.drop 1).take (nwords - 1)).map (fun row => listMax (row.drop 2))

/-- The pre-sort candidate list: each scored position `j` (work.py lines
230-232) paired with `words_list[i][j]`, the token text the downstream pairing
of `get_unique_prediction_results` attaches to that score. -/
def candidates (words : List String) (probs : List (List ℚ)) : List (String × ℚ) :=
  (max_values probs words.length).enum.map (fun p => (words.getD p.1 (""), p.2))

/-- One sentence's slice of the data reaching the prediction loop of
`predict`: its tokens, its score-matrix `probs[0]`, the predicted label ids
`preds[0][label_indices]`, and the (optional) gold label row. -/
structure Sentence where
  words : List String
  probs : List (List ℚ)
  predLabels : List Nat
  labels : Option (List Int)
deriving DecidableEq

/-- The two failures `predict` can raise: the schema dispatch `raise` of
work.py line 193 and the `assert len(words) == len(pred_labels)` of line 228. -/
inductive Err where
  | unknownSchema
  | lengthMismatch
deriving DecidableEq

/-- Per-sentence output accumulated by the prediction loop: the sorted
`(index, score)` list, the token list, the assembled aspects, and the gold
words (absent when the labels tensor is absent). -/
structure SentOut where
  target : List (Nat × ℚ)
  words : List String
  aspects : List Aspect_With_Sentiment
  gold : Option (List String)
deriving DecidableEq

/-- Tag pipeline of work.py lines 239-247: label ids to tag names through
`absa_id2tag`, then schema normalisation to BIEOS. -/
def predTags (schema : String) (vocab : List (String × Nat)) (labels : List Nat) :
    List String :=
  let tags := labels.map (fun l => (lookupA l (absa_id2tag vocab)).getD ("O"))
  if schema = "OT" then ot2bieos_ts tags
  else if schema = "BIO" then ot2bieos_ts (bio2ot_ts tags)
  else tags

/-- The pure body of one loop iteration of `predict` (work.py lines 230-277),
after the length assert has passed. -/
def processPure (schema : String) (vocab : List (String × Nat)) (s : Sentence) :
    SentOut :=
  { target := sortDesc (max_values s.probs s.words.length).enum
    words := s.words
    aspects := assembleAspects s.words (tag2ts (predTags schema vocab s.predLabels))
    gold := s.labels.map (fun ls => goldAlign ls s.words) }

/-- One loop iteration of `predict`: the `assert len(words) == len(pred_labels)`
of work.py line 228, then the pure body. -/
def processSentence (schema : String) (vocab : List (String × Nat)) (s : Sentence) :
    Except Err SentOut :=
  if s.words.length = s.predLabels.length then
    Except.ok (processPure schema vocab s)
  else Except.error Err.lengthMismatch

/-- The batch loop of `predict` (work.py line 201 on): sentences processed in
order; a raised error aborts the remainder of the loop. -/
def predictLoop (schema : String) (vocab : List (String × Nat)) :
    List Sentence → Except Err (List SentOut)
  | [] => Except.ok []
  | s :: rest => do
    let o ← processSentence schema vocab s
    let os ← predictLoop schema vocab rest
    Except.ok (o :: os)

/-- Dataclass `Predict_Result` (work.py lines 28-32). -/
structure Predict_Result where
  unique_predictions : List (List (String × ℚ))
  gold_targets : List (List String)
  aspects : List (List Aspect_With_Sentiment)
deriving DecidableEq

/-- Function `predict` (work.py lines 168-287): schema dispatch, the batch loop, then
assembly of `Predict_Result`; `gold_target_list` only collects the sentences
whose labels tensor was present. -/
def predict (schema : String) (sentences : List Sentence) :
    Except Err Predict_Result :=
  match absa_label_vocab schema with
  | none => Except.error Err.unknownSchema
  | some vocab =>
    match predictLoop schema vocab sentences with
    | Except.error e => Except.error e
    | Except.ok outs =>
      Except.ok
        { unique_predictions :=
            get_unique_prediction_results (outs.map SentOut.words) (outs.map SentOut.target)
          gold_targets := outs.filterMap SentOut.gold
          aspects := outs.map SentOut.aspects }

theorem rat_lit_09 : (0.9 : ℚ) = mkRat 9 10 := by norm_num [mkRat, Rat.normalize]

theorem rat_lit_04 : (0.4 : ℚ) = mkRat 4 10 := by norm_num [mkRat, Rat.normalize]

theorem rat_lit_07 : (0.7 : ℚ) = mkRat 7 10 := by norm_num [mkRat, Rat.normalize]

/-- C1: for every sentence's candidate list, the ranker (stable descending
sort, then the deduplication pass of `get_unique_prediction_results`) yields a
list ordered by score descending with at most one entry per distinct term
text, every kept entry being an input occurrence whose score dominates all
occurrences of its term; on `[("good", 0.9), ("food", 0.4), ("good", 0.7)]`
the output is exactly `[("good", 0.9), ("food", 0.4)]`. -/
theorem claim_C1 (l : List (String × ℚ)) :
    ((rank l).Pairwise (fun a b => b.2 ≤ a.2)
      ∧ ((rank l).map Prod.fst).Nodup
      ∧ (∀ p ∈ rank l, p ∈ l ∧ ∀ q ∈ l, q.1 = p.1 → q.2 ≤ p.2))
    ∧ rank [("good", 0.9), ("food", 0.4), ("good", 0.7)]
        = [("good", 0.9), ("food", 0.4)] := by
  refine ⟨⟨rank_pairwise l, rank_nodup l,
    fun p hp => ⟨rank_mem l p hp, rank_max l p hp⟩⟩, ?_⟩
  rw [rat_lit_09, rat_lit_04, rat_lit_07]
  decide

theorem claim_C1_witness :
    rank [("good", 0.9), ("food", 0.4), ("good", 0.7)]
      = [("good", 0.9), ("food", 0.4)] :=
  (claim_C1 []).2

/-- C9: the candidate ranker is deterministic — identical inputs give
identical outputs — and deduplication is idempotent: re-ranking an output
returns it unchanged, as does re-running the deduplication pass alone. -/
theorem claim_C9 (l l2 : List (String × ℚ)) :
    (l = l2 → rank l = rank l2)
    ∧ rank (rank l) = rank l
    ∧ get_unique_sublist (rank l) = rank l := by
  have hded : get_unique_sublist (rank l) = rank l :=
    dedupAux_of_nodup _ _ (fun p _ => rfl) (rank_nodup l)
  refine ⟨fun h => by rw [h], ?_, hded⟩
  show get_unique_sublist (sortDesc (rank l)) = rank l
  rw [sortDesc_of_pairwise _ (rank_pairwise l)]
  exact hded

theorem claim_C9_witness :
    rank (rank [("a", 1)]) = rank [("a", 1)] :=
  (claim_C9 [("a", 1)] [("a", 1)]).2.1

/-- C10: `get_unique_prediction_results` only guarantees unique terms when its
input is sorted by score descending: on the unsorted single-sentence input
scoring "good" first 0.4 and then 0.9, the output keeps the term twice. -/
theorem claim_C10 :
    get_unique_prediction_results [["good", "good"]] [[(0, 0.4), (1, 0.9)]]
      = [[("good", 0.4), ("good", 0.9)]]
    ∧ (((get_unique_prediction_results [["good", "good"]]
          [[(0, 0.4), (1, 0.9)]]).getD 0 []).map Prod.fst).count ("good") = 2 := by
  rw [rat_lit_09, rat_lit_04]
  constructor
  · decide
  · decide

/-- C6: in each of the three schema vocabularies the tag names are pairwise
distinct, the ids enumerate exactly `[0, size)` in order (so tag ↔ id is a
total bijection onto the range), `O` has id 0 and `EQ` id 1, and the
`absa_id2tag` inverse maps every id back to its unique tag. -/
theorem claim_C6 :
    ((bieos_vocab.map Prod.fst).Nodup
      ∧ bieos_vocab.map Prod.snd = List.range 14
      ∧ lookupA ("O") bieos_vocab = some 0 ∧ lookupA ("EQ") bieos_vocab = some 1
      ∧ ∀ p ∈ bieos_vocab, lookupA p.2 (absa_id2tag bieos_vocab) = some p.1)
    ∧ ((bio_vocab.map Prod.fst).Nodup
      ∧ bio_vocab.map Prod.snd = List.range 8
      ∧ lookupA ("O") bio_vocab = some 0 ∧ lookupA ("EQ") bio_vocab = some 1
      ∧ ∀ p ∈ bio_vocab, lookupA p.2 (absa_id2tag bio_vocab) = some p.1)
    ∧ ((ot_vocab.map Prod.fst).Nodup
      ∧ ot_vocab.map Prod.snd = List.range 5
      ∧ lookupA ("O") ot_vocab = some 0 ∧ lookupA ("EQ") ot_vocab = some 1
      ∧ ∀ p ∈ ot_vocab, lookupA p.2 (absa_id2tag ot_vocab) = some p.1) := by
  decide

theorem enumFrom_fst_le {α : Type} (l : List α) :
    ∀ i, ∀ q ∈ List.enumFrom i l, i ≤ q.1 := by
  induction l with
  | nil => intro i q hq; simp at hq
  | cons a rest ih =>
    intro i q hq
    rw [List.enumFrom_cons] at hq
    rcases List.mem_cons.mp hq with rfl | hq'
    · exact le_refl _
    · exact le_trans (Nat.le_succ i) (ih (i + 1) q hq')

theorem enumFrom_pairwise {α : Type} (l : List α) :
    ∀ i, (List.enumFrom i l).Pairwise (fun p q => p.1 < q.1) := by
  induction l with
  | nil => intro i; simp
  | cons a rest ih =>
    intro i
    rw [List.enumFrom_cons, List.pairwise_cons]
    exact ⟨fun q hq => lt_of_lt_of_le (Nat.lt_succ_self i) (enumFrom_fst_le rest (i + 1) q hq),
      ih (i + 1)⟩

theorem goldAlignLoop_eq (words : List String) (labels : List Int) :
    ∀ i, goldAlignLoop words i labels
      = ((List.enumFrom i labels).filter
            (fun p => decide (1 ≤ p.1 ∧ p.1 < words.length ∧ 1 < p.2))).map
          (fun p => words.getD (p.1 - 1) "") := by
  induction labels with
  | nil => intro i; simp [goldAlignLoop]
  | cons a rest ih =>
    intro i
    rw [List.enumFrom_cons, List.filter_cons]
    by_cases h : 1 ≤ i ∧ i < words.length ∧ 1 < a
    · have hc : 1 < a ∧ 0 < i ∧ i < words.length := ⟨h.2.2, h.1, h.2.1⟩
      simp only [goldAlignLoop]
      rw [if_pos hc, if_pos (decide_eq_true h), ih (i + 1)]
      simp
    · have hc : ¬ (1 < a ∧ 0 < i ∧ i < words.length) := by
        intro hx; exact h ⟨hx.2.1, hx.2.2, hx.1⟩
      simp only [goldAlignLoop]
      rw [if_neg hc, if_neg (by simpa using h), ih (i + 1)]
      simp

theorem goldAlign_nil_of_le (labels : List Int) (words : List String)
    (h : ∀ a ∈ labels, a ≤ 1) : goldAlign labels words = [] := by
  have : ∀ i, goldAlignLoop words i labels = [] := by
    induction labels with
    | nil => intro i; simp [goldAlignLoop]
    | cons a rest ih =>
      intro i
      have ha : ¬ (1 < a ∧ 0 < i ∧ i < words.length) := by
        intro hx
        exact absurd (h a (List.mem_cons_self _ _)) (not_le.mpr hx.1)
      simp only [goldAlignLoop, ha, if_false, List.nil_append]
      exact ih (fun b hb => h b (List.mem_cons_of_mem _ hb)) (i + 1)
  exact this 0

/-- C2: the gold aligner appends `tokens[i-1]` exactly for the positions `i`
with `1 ≤ i < len(tokens)` whose gold id is strictly greater than 1, in
increasing order of `i`; on gold ids `[0, 0, 5, 0]` against tokens
`["a", "b", "c", "d"]` the aligned gold words are exactly `["b"]`. -/
theorem claim_C2 (labels : List Int) (words : List String) :
    goldAlign labels words
      = ((labels.enum.filter
            (fun p => decide (1 ≤ p.1 ∧ p.1 < words.length ∧ 1 < p.2))).map
          (fun p => words.getD (p.1 - 1) ""))
    ∧ (labels.enum.filter
        (fun p => decide (1 ≤ p.1 ∧ p.1 < words.length ∧ 1 < p.2))).Pairwise
        (fun p q => p.1 < q.1)
    ∧ goldAlign [0, 0, 5, 0] ["a", "b", "c", "d"] = ["b"] := by
  refine ⟨?_, ?_, by decide⟩
  · rw [show labels.enum = List.enumFrom 0 labels from rfl]
    exact goldAlignLoop_eq words labels 0
  · exact List.Pairwise.filter _ (enumFrom_pairwise labels 0)

theorem claim_C2_witness :
    goldAlign [0, 0, 5, 0] ["a", "b", "c", "d"] = ["b"] :=
  (claim_C2 [0, 0, 5, 0] ["a", "b", "c", "d"]).2.2

theorem processSentence_ok (schema : String) (v : List (String × Nat))
    (s : Sentence) (h : s.words.length = s.predLabels.length) :
    processSentence schema v s = Except.ok (processPure schema v s) := by
  simp [processSentence, h]

theorem processSentence_error (schema : String) (v : List (String × Nat))
    (s : Sentence) (e : Err) (h : processSentence schema v s = Except.error e) :
    e = Err.lengthMismatch := by
  simp only [processSentence] at h
  split at h
  · exact absurd h (by simp)
  · injection h with h'
    exact h'.symm

theorem predictLoop_ok (schema : String) (v : List (String × Nat)) :
    ∀ ss : List Sentence, (∀ s ∈ ss, s.words.length = s.predLabels.length) →
    predictLoop schema v ss = Except.ok (ss.map (processPure schema v)) := by
  intro ss
  induction ss with
  | nil => intro _; simp [predictLoop]
  | cons s rest ih =>
    intro h
    rw [List.map_cons]
    simp only [predictLoop]
    rw [processSentence_ok schema v s (h s (List.mem_cons_self _ _)),
      ih (fun t ht => h t (List.mem_cons_of_mem _ ht))]
    rfl

theorem predictLoop_ne_unknown (schema : String) (v : List (String × Nat)) :
    ∀ ss : List Sentence, predictLoop schema v ss ≠ Except.error Err.unknownSchema := by
  intro ss
  induction ss with
  | nil => simp [predictLoop]
  | cons s rest ih =>
    simp only [predictLoop]
    cases hps : processSentence schema v s with
    | error e =>
      have he : e = Err.lengthMismatch := processSentence_error schema v s e hps
      subst he
      intro hcontra
      have : (Except.error Err.lengthMismatch : Except Err (List SentOut))
          = Except.error Err.unknownSchema := hcontra
      simp at this
    | ok o =>
      cases hloop : predictLoop schema v rest with
      | error e =>
        intro hcontra
        have : (Except.error e : Except Err (List SentOut))
            = Except.error Err.unknownSchema := hcontra
        have he : e = Err.unknownSchema := by injection this
        exact ih (he ▸ hloop)
      | ok os =>
        intro hcontra
        exact Except.noConfusion hcontra

theorem predictLoop_error_mid (schema : String) (v : List (String × Nat)) :
    ∀ pre : List Sentence, ∀ s : Sentence, ∀ post : List Sentence,
    (∀ t ∈ pre, t.words.length = t.predLabels.length) →
    s.words.length ≠ s.predLabels.length →
    predictLoop schema v (pre ++ s :: post) = Except.error Err.lengthMismatch := by
  intro pre
  induction pre with
  | nil =>
    intro s post _ hs
    simp only [List.nil_append, predictLoop]
    rw [show processSentence schema v s = Except.error Err.lengthMismatch by
      simp [processSentence, hs]]
    rfl
  | cons t pre' ih =>
    intro s post hpre hs
    have hrec : predictLoop schema v (pre' ++ s :: post)
        = Except.error Err.lengthMismatch :=
      ih s post (fun u hu => hpre u (List.mem_cons_of_mem _ hu)) hs
    show (do
      let o ← processSentence schema v t
      let os ← predictLoop schema v (pre' ++ s :: post)
      Except.ok (o :: os)) = Except.error Err.lengthMismatch
    rw [processSentence_ok schema v t (hpre t (List.mem_cons_self _ _)), hrec]
    rfl

/-- C5: `predict` fails with the unknown-schema error exactly when the schema
name lies outside `{OT, BIO, BIEOS}`, and it does so uniformly in the batch —
for an unknown name the error comes back whatever the sentences are, i.e.
before any sentence is processed — while a supported name never produces it. -/
theorem claim_C5 (schema : String) (ss : List Sentence) :
    predict schema ss = Except.error Err.unknownSchema
      ↔ ¬(schema = "OT" ∨ schema = "BIO" ∨ schema = "BIEOS") := by
  constructor
  · intro h hmem
    have hv : ∃ v, absa_label_vocab schema = some v := by
      rcases hmem with h1 | h1 | h1 <;> rw [h1] <;>
        first
          | exact ⟨ot_vocab, rfl⟩
          | exact ⟨bio_vocab, rfl⟩
          | exact ⟨bieos_vocab, rfl⟩
    obtain ⟨v, hv⟩ := hv
    simp only [predict, hv] at h
    cases hloop : predictLoop schema v ss with
    | error e =>
      simp only [hloop] at h
      have he : e = Err.unknownSchema := by injection h
      exact predictLoop_ne_unknown schema v ss (he ▸ hloop)
    | ok os =>
      simp only [hloop] at h
      exact Except.noConfusion h
  · intro h
    have h1 : schema ≠ "OT" := fun hc => h (Or.inl hc)
    have h2 : schema ≠ "BIO" := fun hc => h (Or.inr (Or.inl hc))
    have h3 : schema ≠ "BIEOS" := fun hc => h (Or.inr (Or.inr hc))
    rw [predict, show absa_label_vocab schema = none by
      simp [absa_label_vocab, h1, h2, h3]]

theorem claim_C5_witness :
    predict ("XYZ") [] = Except.error Err.unknownSchema :=
  (claim_C5 ("XYZ") []).mpr (by decide)

/-- One batch sentence with two tokens but a single predicted label: the
length assert of work.py line 228 fires on it. -/
def badSentence : Sentence :=
  { words := ["a", "b"], probs := [], predLabels := [0], labels := some [] }

/-- A well-formed one-token batch sentence. -/
def okSentence : Sentence :=
  { words := ["a"], probs := [[0, 0, 0], [0, 0, 1]], predLabels := [0],
    labels := some [0] }

/-- C4 counterexample: with a mismatched sentence followed by a well-formed
one, `predict` returns only the length-mismatch error — the claimed batch
result in which the remaining sentence still appears does not exist. -/
theorem claim_C4_counterexample :
    predict ("BIEOS") [badSentence, okSentence] = Except.error Err.lengthMismatch
    ∧ ∀ r : Predict_Result,
        predict ("BIEOS") [badSentence, okSentence] ≠ Except.ok r := by
  have h : predict ("BIEOS") [badSentence, okSentence]
      = Except.error Err.lengthMismatch := rfl
  exact ⟨h, fun r hr => Except.noConfusion (h ▸ hr)⟩

/-- C4 (amended): when the token count and the predicted tag-sequence length
disagree for one sentence, the error raised is fatal to the whole call: the
batch loop stops there and `predict` returns the length-mismatch error
instead of any batch result, whatever sentences follow. -/
theorem claim_C4_amended (schema : String) (v : List (String × Nat))
    (pre : List Sentence) (s : Sentence) (post : List Sentence)
    (hv : absa_label_vocab schema = some v)
    (hpre : ∀ t ∈ pre, t.words.length = t.predLabels.length)
    (hs : s.words.length ≠ s.predLabels.length) :
    predict schema (pre ++ s :: post) = Except.error Err.lengthMismatch := by
  simp only [predict, hv]
  rw [predictLoop_error_mid schema v pre s post hpre hs]

theorem claim_C4_amended_witness :
    predict ("BIEOS") [okSentence, badSentence] = Except.error Err.lengthMismatch :=
  claim_C4_amended ("BIEOS") bieos_vocab [okSentence] badSentence [] rfl
    (by decide) (by decide)

/-- Placeholder sentence used only as a `getD` default. -/
def noSentence : Sentence :=
  { words := [], probs := [], predLabels := [], labels := none }

theorem gold_targets_eq (schema : String) (v : List (String × Nat)) :
    ∀ ss : List Sentence, (∀ s ∈ ss, (s.labels).isSome) →
    (ss.map (processPure schema v)).filterMap SentOut.gold
      = ss.map (fun s => goldAlign (s.labels.getD []) s.words) := by
  intro ss
  induction ss with
  | nil => intro _; simp
  | cons s rest ih =>
    intro h
    obtain ⟨ls, hls⟩ := Option.isSome_iff_exists.mp (h s (List.mem_cons_self _ _))
    have hgold : (processPure schema v s).gold = some (goldAlign ls s.words) := by
      simp [processPure, hls]
    simp only [List.map_cons, List.filterMap_cons, hgold, hls,
      ih (fun t ht => h t (List.mem_cons_of_mem _ ht))]
    simp [hls]

/-- C3: for every batch accepted by `predict` (a supported schema, matching
token/label lengths, the labels tensor present as `load_and_cache_examples`
always supplies it), the assembled result is 1:1 index-aligned with the batch:
`gold_targets` and `aspects` are exactly the per-sentence outputs in input
order, `unique_predictions` has one entry per sentence, the `i`-th being that
sentence's ranked list; and a sentence with no gold-tagged position (all ids
`≤ 1`) contributes an empty gold-words entry, never a missing one. -/
theorem claim_C3 (schema : String) (v : List (String × Nat)) (ss : List Sentence)
    (hv : absa_label_vocab schema = some v)
    (hlen : ∀ s ∈ ss, s.words.length = s.predLabels.length)
    (hlab : ∀ s ∈ ss, (s.labels).isSome) :
    ∃ r, predict schema ss = Except.ok r
      ∧ r.gold_targets = ss.map (fun s => goldAlign (s.labels.getD []) s.words)
      ∧ r.aspects = ss.map (fun s => (processPure schema v s).aspects)
      ∧ r.unique_predictions.length = ss.length
      ∧ (∀ i, i < ss.length →
          r.unique_predictions.getD i []
            = get_unique_sublist
                ((processPure schema v (ss.getD i noSentence)).target.map
                  (fun q => ((ss.getD i noSentence).words.getD q.1 (""), q.2))))
      ∧ (∀ (ls : List Int) (ws : List String), (∀ a ∈ ls, a ≤ 1) →
          goldAlign ls ws = []) := by
  have hloop := predictLoop_ok schema v ss hlen
  refine ⟨⟨get_unique_prediction_results
      ((ss.map (processPure schema v)).map SentOut.words)
      ((ss.map (processPure schema v)).map SentOut.target),
    (ss.map (processPure schema v)).filterMap SentOut.gold,
    (ss.map (processPure schema v)).map SentOut.aspects⟩, ?_, ?_, ?_, ?_, ?_,
    fun ls ws h => goldAlign_nil_of_le ls ws h⟩
  · simp only [predict, hv, hloop]
  · exact gold_targets_eq schema v ss hlab
  · show (ss.map (processPure schema v)).map SentOut.aspects
      = ss.map (fun s => (processPure schema v s).aspects)
    rw [List.map_map]
    rfl
  · simp [get_unique_prediction_results, List.enum_length]
  · intro i hi
    have hts : i < ((ss.map (processPure schema v)).map SentOut.target).length := by
      simp [hi]
    have hws : i < ((ss.map (processPure schema v)).map SentOut.words).length := by
      simp [hi]
    have hg : i < (get_unique_prediction_results
        ((ss.map (processPure schema v)).map SentOut.words)
        ((ss.map (processPure schema v)).map SentOut.target)).length := by
      simp [get_unique_prediction_results, List.enum_length, hi]
    rw [List.getD_eq_getElem _ _ hg]
    simp only [get_unique_prediction_results, List.getElem_map, List.getElem_enum,
      List.getD_eq_getElem _ _ hws, List.getD_eq_getElem _ _ hi,
      List.getD_eq_getElem _ _ (show i < ss.length from hi)]
    rfl

theorem claim_C3_witness :
    ∃ r, predict ("BIEOS") [okSentence] = Except.ok r ∧ r.gold_targets = [[]] := by
  obtain ⟨r, h1, h2, _⟩ :=
    claim_C3 ("BIEOS") bieos_vocab [okSentence] rfl (by decide) (by decide)
  refine ⟨r, h1, ?_⟩
  rw [h2]
  decide

theorem insertDesc_map {α β : Type} (f : α → β) (p : α × ℚ) :
    ∀ l : List (α × ℚ), (insertDesc p l).map (fun q => (f q.1, q.2))
      = insertDesc (f p.1, p.2) (l.map (fun q => (f q.1, q.2))) := by
  intro l
  induction l with
  | nil => simp [insertDesc]
  | cons q qs ih =>
    by_cases h : p.2 < q.2
    · simp [insertDesc, h, ih]
    · simp [insertDesc, h]

theorem sortDesc_map {α β : Type} (f : α → β) :
    ∀ l : List (α × ℚ), (sortDesc l).map (fun q => (f q.1, q.2))
      = sortDesc (l.map (fun q => (f q.1, q.2))) := by
  intro l
  induction l with
  | nil => simp [sortDesc]
  | cons p ps ih =>
    simp only [sortDesc, List.map_cons, insertDesc_map, ih]

theorem le_foldl_max (xs : List ℚ) :
    ∀ a : ℚ, a ≤ xs.foldl max a ∧ ∀ x ∈ xs, x ≤ xs.foldl max a := by
  induction xs with
  | nil => intro a; exact ⟨le_refl a, by simp⟩
  | cons x xs ih =>
    intro a
    simp only [List.foldl_cons]
    constructor
    · exact le_trans (le_max_left a x) (ih (max a x)).1
    · intro y hy
      rcases List.mem_cons.mp hy with rfl | hy'
      · exact le_trans (le_max_right a y) (ih (max a y)).1
      · exact (ih (max a x)).2 y hy'

theorem foldl_max_mem (xs : List ℚ) :
    ∀ a : ℚ, xs.foldl max a = a ∨ xs.foldl max a ∈ xs := by
  induction xs with
  | nil => intro a; left; rfl
  | cons x xs ih =>
    intro a
    simp only [List.foldl_cons]
    rcases ih (max a x) with h | h
    · rcases max_choice a x with hm | hm
      · left; rw [h, hm]
      · right; rw [h, hm]; exact List.mem_cons_self _ _
    · right; exact List.mem_cons_of_mem _ h

theorem listMax_mem (l : List ℚ) (h : l ≠ []) : listMax l ∈ l := by
  cases l with
  | nil => exact absurd rfl h
  | cons x xs =>
    simp only [listMax]
    rcases foldl_max_mem xs x with h1 | h1
    · rw [h1]; exact List.mem_cons_self _ _
    · exact List.mem_cons_of_mem _ h1

theorem le_listMax (l : List ℚ) : ∀ x ∈ l, x ≤ listMax l := by
  intro x hx
  cases l with
  | nil => simp at hx
  | cons y ys =>
    simp only [listMax]
    rcases List.mem_cons.mp hx with rfl | hx'
    · exact (le_foldl_max ys x).1
    · exact (le_foldl_max ys y).2 x hx'

/-- C7: per sentence, the candidate scores are taken over the interior row
slice `[1:len(words)]` of the score matrix with the two non-sentiment columns
excluded: the list has one entry per scored row, the `j`-th entry pairs the
token text `words[j]` with the maximum over columns from 2 of row `j+1` (a
true maximum: a member of that row slice bounding all of it), in original
token order; and pairing commutes with the descending sort of the pipeline. -/
theorem claim_C7 (words : List String) (probs : List (List ℚ)) :
    (candidates words probs).length = min (words.length - 1) (probs.length - 1)
    ∧ (sortDesc ((max_values probs words.length).enum)).map
        (fun p => (words.getD p.1 (""), p.2)) = sortDesc (candidates words probs)
    ∧ ∀ j, j < (candidates words probs).length →
        ((candidates words probs).getD j ("", 0)).1 = words.getD j ("")
        ∧ ((candidates words probs).getD j ("", 0)).2
            = listMax ((probs.getD (j + 1) []).drop 2)
        ∧ (2 < (probs.getD (j + 1) []).length →
            ((candidates words probs).getD j ("", 0)).2 ∈ (probs.getD (j + 1) []).drop 2
            ∧ ∀ x ∈ (probs.getD (j + 1) []).drop 2,
                x ≤ ((candidates words probs).getD j ("", 0)).2) := by
  refine ⟨?_, ?_, ?_⟩
  · simp [candidates, max_values, List.enum_length, List.length_take, List.length_drop]
  · exact sortDesc_map (fun i => words.getD i ("")) _
  · intro j hj
    have hj1 : j < (max_values probs words.length).length := by
      simpa [candidates, List.enum_length] using hj
    have hj2 : j < probs.length - 1 := by
      have h2 := hj1
      simp only [max_values, List.length_map, List.length_take, List.length_drop] at h2
      omega
    have hjp : j + 1 < probs.length := by omega
    have hval : ((candidates words probs).getD j ("", 0)).2
        = listMax ((probs.getD (j + 1) []).drop 2) := by
      rw [List.getD_eq_getElem _ _ hj]
      simp only [candidates, List.getElem_map, List.getElem_enum]
      simp only [max_values, List.getElem_map, List.getElem_take, List.getElem_drop]
      rw [List.getD_eq_getElem _ _ hjp]
      simp only [show (1 : ℕ) + j = j + 1 from Nat.add_comm 1 j]
    refine ⟨?_, hval, ?_⟩
    · rw [List.getD_eq_getElem _ _ hj]
      simp only [candidates, List.getElem_map, List.getElem_enum]
    · intro hrow
      have hne : (probs.getD (j + 1) []).drop 2 ≠ [] := by
        intro hc
        have : ((probs.getD (j + 1) []).drop 2).length = 0 := by rw [hc]; rfl
        rw [List.length_drop] at this
        omega
      exact ⟨hval ▸ listMax_mem _ hne, fun x hx => hval ▸ le_listMax _ x hx⟩

theorem claim_C7_witness :
    ((candidates ["u", "v", "w"]
        [[9, 9, 9, 9], [0, 0, 3, 2], [0, 0, 6, 5], [7, 7, 7, 7]]).getD 0 ("", 0)).2
      ∈ (([[(9 : ℚ), 9, 9, 9], [0, 0, 3, 2], [0, 0, 6, 5], [7, 7, 7, 7]].getD 1 []).drop 2) := by
  have h := (claim_C7 ["u", "v", "w"]
    [[9, 9, 9, 9], [0, 0, 3, 2], [0, 0, 6, 5], [7, 7, 7, 7]]).2.2 0 (by decide)
  exact (h.2.2 (by decide)).1

/-- C8: under the spec's span precondition `begin ≤ end < len(sentence)`, the
assembly loop builds, for each span, an `Aspect_With_Sentiment` whose aspect
is the token text at `begin`, whose indices are `(begin, end)` and whose
sentiment is the span's polarity; the slice `words[begin:end+1]` indexed by
the loop is non-empty and `begin` is in bounds, so no access is out of range. -/
theorem claim_C8 (words : List String) (spans : List (Nat × Nat × String))
    (h : ∀ t ∈ spans, t.1 ≤ t.2.1 ∧ t.2.1 < words.length) :
    (assembleAspects words spans).length = spans.length
    ∧ ∀ t ∈ spans,
        t.1 < words.length
        ∧ 0 < ((words.drop t.1).take (t.2.1 + 1 - t.1)).length
        ∧ (mkAspect words t).aspect = words.getD t.1 ("")
        ∧ (mkAspect words t).indices = (t.1, t.2.1)
        ∧ (mkAspect words t).sentiment = t.2.2
        ∧ mkAspect words t ∈ assembleAspects words spans := by
  refine ⟨by simp [assembleAspects], ?_⟩
  intro t ht
  obtain ⟨hbe, he⟩ := h t ht
  have hb : t.1 < words.length := lt_of_le_of_lt hbe he
  have hlen : 0 < ((words.drop t.1).take (t.2.1 + 1 - t.1)).length := by
    rw [List.length_take, List.length_drop]
    simp only [lt_min_iff]
    omega
  refine ⟨hb, hlen, ?_, rfl, rfl, List.mem_map_of_mem _ ht⟩
  have hdrop : words.drop t.1 = words[t.1] :: words.drop (t.1 + 1) :=
    List.drop_eq_getElem_cons hb
  obtain ⟨k, hk⟩ : ∃ k, t.2.1 + 1 - t.1 = k + 1 := ⟨t.2.1 - t.1, by omega⟩
  simp only [mkAspect, hdrop, hk, List.take_succ_cons, List.headD_cons]
  rw [List.getD_eq_getElem _ _ hb]

theorem claim_C8_witness :
    (mkAspect ["x", "y"] (0, 1, "POS")).aspect = "x"
    ∧ (mkAspect ["x", "y"] (0, 1, "POS")).indices = (0, 1) := by
  have h := (claim_C8 ["x", "y"] [(0, 1, "POS")] (by decide)).2 (0, 1, "POS")
    (by decide)
  exact ⟨h.2.2.1, h.2.2.2.1⟩

end BertABSA
